import Mathlib

/-!
Verification of the Solana-format account entry serializer.

The development shallowly embeds `serialize_account_solana_format` from
`src/rust_test_helper/src/serialize_solana_format.rs`: byte buffers are
`List Nat` (each element one byte), machine integers are `Nat` with explicit
truncation where the Rust code casts, and the function threads its
by-mutable-reference arguments (`buffer`, `lamports`, `data`) explicitly as
state.  The plan-level encoder with its validation pass and the decoder are
modelled from the spec (they are absent from the source) and are built on top
of the per-account serializer taken from the source.
-/

namespace SolFmt

/-- Byte emitted for a Rust `bool as u8` cast: 1 for true, 0 for false. -/
def boolByte (b : Bool) : Nat := if b then 1 else 0

/-- Little-endian byte encoding of `n` into exactly `w` bytes, truncating to
`n % 256^w` as a Rust integer cast would. -/
def leBytes : Nat → Nat → List Nat
  | 0, _ => []
  | w + 1, n => n % 256 :: leBytes w (n / 256)

/-- Value of a little-endian byte list (bytes assumed < 256). -/
def leValue : List Nat → Nat
  | [] => 0
  | b :: bs => b + 256 * leValue bs

/-- One account's serializable state: the fields of the Rust call
(`key`, `owner` are 32-byte identifiers, `lamports : u64`, `data : Vec<u8>`,
and the three flags). -/
structure AccountSnapshot where
  key : List Nat
  owner : List Nat
  lamports : Nat
  data : List Nat
  is_signer : Bool
  is_writable : Bool
  executable : Bool
deriving DecidableEq, Repr

/-- Shallow embedding of `serialize_account_solana_format` (source lines
329–379).  The Rust function mutates `buffer` and receives `lamports` and
`data` by `&mut`; here it returns the triple (new buffer, lamports, data).
In the non-duplicate branch it pushes, in order: the 0xFF marker, the 0xFF
duplicate-index placeholder, the three flag bytes, `data.len() as u32`
little-endian, the 32 key bytes, the 32 owner bytes, `lamports` as u64
little-endian, `data.len() as u64` little-endian, then the data itself.
In the duplicate branch it pushes the single `dup_index : u8` byte. -/
def serialize_account_solana_format (buffer : List Nat) (key : List Nat)
    (is_signer : Bool) (is_writable : Bool) (lamports : Nat) (data : List Nat)
    (owner : List Nat) (executable : Bool) (is_non_dup : Bool) (dup_index : Nat) :
    List Nat × Nat × List Nat :=
  if is_non_dup then
    (buffer
      ++ [0xFF]
      ++ [0xFF]
      ++ [boolByte is_signer]
      ++ [boolByte is_writable]
      ++ [boolByte executable]
      ++ leBytes 4 data.length
      ++ key
      ++ owner
      ++ leBytes 8 lamports
      ++ leBytes 8 data.length
      ++ data,
     lamports, data)
  else
    (buffer ++ [dup_index % 256], lamports, data)

/-- One slot of an encoding plan: either a full account record or a compacted
back-reference to a prior slot. -/
inductive Slot where
  | Original : AccountSnapshot → Slot
  | DuplicateOf : Nat → Slot
deriving DecidableEq, Repr

/-- Bytes one slot contributes to the buffer, obtained from the source
serializer run on an empty buffer (non-duplicate branch for `Original`,
duplicate branch for `DuplicateOf`). -/
def slotBytes : Slot → List Nat
  | .Original s =>
      (serialize_account_solana_format [] s.key s.is_signer s.is_writable
        s.lamports s.data s.owner s.executable true 0).1
  | .DuplicateOf j =>
      (serialize_account_solana_format [] [] false false 0 [] [] false false j).1

/-- Modelled from the spec: the encode-time error taxonomy of §7; the source
contains no validation pass, only the byte emission. -/
inductive EncodeError where
  | PlanTooLarge
  | DataLengthOverflow
  | InvalidDuplicateReference
deriving DecidableEq, Repr

/-- Modelled from the spec: every `Original` slot's data length must fit the
32-bit original-length field. -/
def dataLenOk (p : List Slot) : Bool :=
  p.all fun s =>
    match s with
    | .Original a => decide (a.data.length < 2 ^ 32)
    | .DuplicateOf _ => true

/-- Is the slot at index `j` an `Original` slot? -/
def isOriginalAt (p : List Slot) (j : Nat) : Bool :=
  match p.get? j with
  | some (.Original _) => true
  | _ => false

/-- Modelled from the spec: every `DuplicateOf j` at position `i` must have
`j < i` and the slot at `j` must be `Original`. -/
def dupRefOk (p : List Slot) : Bool :=
  (List.range p.length).all fun i =>
    match p.get? i with
    | some (.DuplicateOf j) => decide (j < i) && isOriginalAt p j
    | _ => true

/-- Modelled from the spec: the plan-level encoder.  A pure validation pass
(§7 order: `PlanTooLarge`, `DataLengthOverflow`, `InvalidDuplicateReference`)
runs before any byte is produced; on success the buffer is the one-byte slot
count followed by each slot's bytes in order, exactly as the source fixture
generators build it around `serialize_account_solana_format`. -/
def encodePlan (p : List Slot) : Except EncodeError (List Nat) :=
  if 255 < p.length then .error .PlanTooLarge
  else if dataLenOk p = false then .error .DataLengthOverflow
  else if dupRefOk p = false then .error .InvalidDuplicateReference
  else .ok (p.length :: p.flatMap slotBytes)

/-- Read `n` bytes from the front of a buffer, failing if it is too short. -/
def readChunk (n : Nat) (bs : List Nat) : Option (List Nat × List Nat) :=
  if n ≤ bs.length then some (bs.take n, bs.drop n) else none

/-- Modelled from the spec: decode `count` slots from a byte stream.  Peek one
byte; `0xFF` starts a full record (placeholder byte, three flag bytes, 4-byte
original length, 32-byte key, 32-byte owner, 8-byte lamports, 8-byte data
length, then that many data bytes); any other byte is a duplicate index. -/
def decodeSlots : Nat → List Nat → Option (List Slot)
  | 0, _ => some []
  | _ + 1, [] => none
  | n + 1, b :: rest =>
    if b = 0xFF then do
      let (_dupIdx, r1) ← readChunk 1 rest
      let (f1, r2) ← readChunk 1 r1
      let (f2, r3) ← readChunk 1 r2
      let (f3, r4) ← readChunk 1 r3
      let (_origLen, r5) ← readChunk 4 r4
      let (key, r6) ← readChunk 32 r5
      let (owner, r7) ← readChunk 32 r6
      let (lamBytes, r8) ← readChunk 8 r7
      let (lenBytes, r9) ← readChunk 8 r8
      let (data, r10) ← readChunk (leValue lenBytes) r9
      let slots ← decodeSlots n r10
      pure (Slot.Original
        { key := key, owner := owner, lamports := leValue lamBytes, data := data,
          is_signer := decide (f1 = [1]), is_writable := decide (f2 = [1]),
          executable := decide (f3 = [1]) } :: slots)
    else do
      let slots ← decodeSlots n rest
      pure (Slot.DuplicateOf b :: slots)

/-- Modelled from the spec: decode a whole buffer — one-byte slot count, then
that many slots. -/
def decodeBuffer (bs : List Nat) : Option (List Slot) :=
  match bs with
  | [] => none
  | count :: rest => decodeSlots count rest

/-! ### Helper lemmas -/

theorem leBytes_length (w n : Nat) : (leBytes w n).length = w := by
  induction w generalizing n with
  | zero => rfl
  | succ w ih => simp [leBytes, ih]

theorem leValue_leBytes (w n : Nat) : leValue (leBytes w n) = n % 256 ^ w := by
  induction w generalizing n with
  | zero => simp [leBytes, leValue, Nat.mod_one]
  | succ w ih =>
    simp only [leBytes, leValue, ih]
    rw [pow_succ, mul_comm (256 ^ w) 256, Nat.mod_mul]

theorem leValue_leBytes_of_lt {w n : Nat} (h : n < 256 ^ w) :
    leValue (leBytes w n) = n := by
  rw [leValue_leBytes, Nat.mod_eq_of_lt h]

theorem readChunk_append {n : Nat} {a t : List Nat}
    (h : a.length = n) : readChunk n (a ++ t) = some (a, t) := by
  subst h
  simp [readChunk, List.take_left, List.drop_left]

theorem leValue_leBytes8 {n : Nat} (h : n < 2 ^ 64) : leValue (leBytes 8 n) = n :=
  leValue_leBytes_of_lt (by norm_num at h ⊢; exact h)

theorem boolByte_eq_one_iff (b : Bool) : decide ([boolByte b] = [1]) = b := by
  cases b <;> rfl

theorem encodePlan_ok_iff (p : List Slot) (b : List Nat) :
    encodePlan p = .ok b ↔
      p.length ≤ 255 ∧ dataLenOk p = true ∧ dupRefOk p = true ∧
        b = p.length :: p.flatMap slotBytes := by
  unfold encodePlan
  split_ifs with h1 h2 h3
  · constructor
    · intro hc; exact hc.elim
    · rintro ⟨hle, -, -, -⟩; omega
  · constructor
    · intro hc; exact hc.elim
    · rintro ⟨-, hdl, -, -⟩; rw [h2] at hdl; exact Bool.noConfusion hdl
  · constructor
    · intro hc; exact hc.elim
    · rintro ⟨-, -, hdr, -⟩; rw [h3] at hdr; exact Bool.noConfusion hdr
  · constructor
    · intro hc
      injection hc with hb
      exact ⟨Nat.le_of_not_lt h1, by simpa using h2, by simpa using h3, hb.symm⟩
    · rintro ⟨-, -, -, hb⟩; rw [hb]

theorem slotBytes_original (s : AccountSnapshot) :
    slotBytes (.Original s) =
      [0xFF] ++ [0xFF] ++ [boolByte s.is_signer] ++ [boolByte s.is_writable]
        ++ [boolByte s.executable] ++ leBytes 4 s.data.length ++ s.key ++ s.owner
        ++ leBytes 8 s.lamports ++ leBytes 8 s.data.length ++ s.data := by
  simp [slotBytes, serialize_account_solana_format]

theorem slotBytes_dup (j : Nat) : slotBytes (.DuplicateOf j) = [j % 256] := by
  simp [slotBytes, serialize_account_solana_format]

theorem dataLenOk_mem {p : List Slot} (h : dataLenOk p = true)
    {s : AccountSnapshot} (hs : Slot.Original s ∈ p) : s.data.length < 2 ^ 32 := by
  have := (List.all_eq_true.mp h) _ hs
  simpa using this

theorem dupRefOk_get {p : List Slot} (h : dupRefOk p = true)
    {i j : Nat} (hget : p.get? i = some (.DuplicateOf j)) :
    j < i ∧ isOriginalAt p j = true := by
  have hi : i < p.length := by
    by_contra hc
    rw [List.get?_eq_none.mpr (Nat.le_of_not_lt hc)] at hget
    exact Option.noConfusion hget
  have := (List.all_eq_true.mp h) i (List.mem_range.mpr hi)
  rw [hget] at this
  simpa using this

theorem readChunk_one (b : Nat) (t : List Nat) : readChunk 1 (b :: t) = some ([b], t) := by
  simp [readChunk]

/-- Per-slot well-formedness needed for decoding to invert encoding. -/
def SlotOK : Slot → Prop
  | .Original a =>
      a.key.length = 32 ∧ a.owner.length = 32 ∧ a.lamports < 2 ^ 64 ∧
        a.data.length < 2 ^ 64
  | .DuplicateOf j => j < 255

theorem decodeSlots_cons_original (a : AccountSnapshot) (n : Nat) (R : List Nat)
    (hk : a.key.length = 32) (ho : a.owner.length = 32)
    (hlam : a.lamports < 2 ^ 64) (hd : a.data.length < 2 ^ 64) :
    decodeSlots (n + 1) (slotBytes (.Original a) ++ R)
      = (decodeSlots n R).map fun slots => .Original a :: slots := by
  rw [slotBytes_original]
  simp only [List.append_assoc, List.singleton_append, List.cons_append, List.nil_append]
  rw [decodeSlots]
  rw [if_pos rfl]
  simp only [readChunk_one, Option.bind_eq_bind, Option.some_bind,
    readChunk_append (leBytes_length 4 a.data.length),
    readChunk_append hk, readChunk_append ho,
    readChunk_append (leBytes_length 8 a.lamports),
    readChunk_append (leBytes_length 8 a.data.length),
    leValue_leBytes8 hd, leValue_leBytes8 hlam,
    readChunk_append (Eq.refl a.data.length),
    boolByte_eq_one_iff]
  cases hdec : decodeSlots n R <;> simp [hdec, Option.bind, Option.map]

theorem decodeSlots_cons_dup (j : Nat) (n : Nat) (R : List Nat) (hj : j < 255) :
    decodeSlots (n + 1) (slotBytes (.DuplicateOf j) ++ R)
      = (decodeSlots n R).map fun slots => .DuplicateOf j :: slots := by
  rw [slotBytes_dup]
  have hj256 : j % 256 = j := Nat.mod_eq_of_lt (lt_trans hj (by norm_num))
  simp only [List.singleton_append, List.cons_append, hj256]
  rw [decodeSlots]
  rw [if_neg (Nat.ne_of_lt hj)]
  cases hdec : decodeSlots n R <;> simp [hdec, Option.bind, Option.map]

theorem get?_some_lt {p : List Slot} {i : Nat} {x : Slot}
    (h : p.get? i = some x) : i < p.length := by
  by_contra hc
  rw [List.get?_eq_none.mpr (Nat.le_of_not_lt hc)] at h
  exact Option.noConfusion h

theorem decodeSlots_flatMap (slots : List Slot) (h : ∀ s ∈ slots, SlotOK s)
    (t : List Nat) :
    decodeSlots slots.length (slots.flatMap slotBytes ++ t) = some slots := by
  induction slots with
  | nil => rfl
  | cons s tl ih =>
    have hs := h s (List.mem_cons_self s tl)
    have htl := fun x hx => h x (List.mem_cons_of_mem s hx)
    rw [List.flatMap_cons, List.append_assoc, List.length_cons]
    cases s with
    | Original a =>
      obtain ⟨hk, ho, hlam, hd⟩ := hs
      rw [decodeSlots_cons_original a tl.length _ hk ho hlam hd, ih htl]
      rfl
    | DuplicateOf j =>
      rw [decodeSlots_cons_dup j tl.length _ hs, ih htl]
      rfl

/-! ### Plan statistics and concrete fixtures -/

/-- Number of `Original` slots in a plan. -/
def originalsCount (p : List Slot) : Nat :=
  p.countP fun s => match s with | .Original _ => true | .DuplicateOf _ => false

/-- Number of `DuplicateOf` slots in a plan. -/
def dupsCount (p : List Slot) : Nat :=
  p.countP fun s => match s with | .Original _ => false | .DuplicateOf _ => true

/-- Total data bytes over the `Original` slots of a plan. -/
def dataSum (p : List Slot) : Nat :=
  (p.map fun s => match s with | .Original a => a.data.length | .DuplicateOf _ => 0).sum

/-- Type-level well-formedness the Rust signature guarantees: identifiers are
`[u8; 32]` and lamports is a `u64`. -/
def keysOk : Slot → Bool
  | .Original a =>
      decide (a.key.length = 32) && decide (a.owner.length = 32) &&
        decide (a.lamports < 2 ^ 64)
  | .DuplicateOf _ => true

theorem keysOk_original {p : List Slot} (h : p.all keysOk = true)
    {a : AccountSnapshot} (ha : Slot.Original a ∈ p) :
    a.key.length = 32 ∧ a.owner.length = 32 ∧ a.lamports < 2 ^ 64 := by
  have := (List.all_eq_true.mp h) _ ha
  simp only [keysOk, Bool.and_eq_true, decide_eq_true_eq] at this
  exact ⟨this.1.1, this.1.2, this.2⟩

theorem slotOK_of_ok {p : List Slot} {b : List Nat} (henc : encodePlan p = .ok b)
    (hwf : p.all keysOk = true) : ∀ s ∈ p, SlotOK s := by
  obtain ⟨hlen, hdl, hdr, -⟩ := (encodePlan_ok_iff p b).mp henc
  intro s hs
  cases s with
  | Original a =>
    obtain ⟨hk, ho, hlam⟩ := keysOk_original hwf hs
    have hd : a.data.length < 2 ^ 32 := dataLenOk_mem hdl hs
    exact ⟨hk, ho, hlam, lt_trans hd (by norm_num)⟩
  | DuplicateOf j =>
    obtain ⟨i, hget⟩ := List.mem_iff_get?.mp hs
    have hji := (dupRefOk_get hdr hget).1
    have hip := get?_some_lt hget
    show j < 255
    omega

theorem slotBytes_original_length (a : AccountSnapshot)
    (hk : a.key.length = 32) (ho : a.owner.length = 32) :
    (slotBytes (.Original a)).length = 89 + a.data.length := by
  rw [slotBytes_original]
  simp [leBytes_length, hk, ho]
  omega

theorem flatMap_slotBytes_length (p : List Slot) (hwf : p.all keysOk = true) :
    (p.flatMap slotBytes).length
      = 89 * originalsCount p + dataSum p + dupsCount p := by
  induction p with
  | nil => rfl
  | cons s tl ih =>
    have hs := (List.all_eq_true.mp hwf) s (List.mem_cons_self s tl)
    have htl : tl.all keysOk = true :=
      List.all_eq_true.mpr fun x hx => (List.all_eq_true.mp hwf) x (List.mem_cons_of_mem s hx)
    rw [List.flatMap_cons, List.length_append, ih htl]
    cases s with
    | Original a =>
      obtain ⟨hk, ho, -⟩ := keysOk_original hwf (List.mem_cons_self _ tl)
      rw [slotBytes_original_length a hk ho]
      simp only [originalsCount, dupsCount, dataSum, List.countP_cons, List.map_cons,
        List.sum_cons]
      simp
      omega
    | DuplicateOf j =>
      rw [slotBytes_dup]
      simp only [originalsCount, dupsCount, dataSum, List.countP_cons, List.map_cons,
        List.sum_cons]
      simp
      omega

/-- A single-slot plan whose one `Original` account has empty data
(the scenario of the spec's empty-data boundary test). -/
def planEmptyOne : List Slot :=
  [Slot.Original
    { key := List.replicate 32 0, owner := List.replicate 32 0, lamports := 1000,
      data := [], is_signer := true, is_writable := true, executable := false }]

/-- A two-slot plan: one full record then a back-reference to it. -/
def planRT : List Slot :=
  [Slot.Original
    { key := List.replicate 32 1, owner := List.replicate 32 2, lamports := 1000,
      data := [0xAA, 0xBB], is_signer := true, is_writable := false,
      executable := true },
   Slot.DuplicateOf 0]

/-! ### Claim theorems -/

/-- C1: For every Original snapshot, the encoder emits its slot record as
exactly these fields in this order: a 0xFF non-duplicate marker byte, a 0xFF
duplicate-index placeholder byte, one byte each for is_signer, is_writable and
executable, the data length as a 4-byte little-endian u32, the 32-byte
identifier, the 32-byte owner, lamports as an 8-byte little-endian u64, the
data length again as an 8-byte little-endian u64, then the data bytes;
both length fields carry the value `data.length`. -/
theorem C1_original_record_layout (buffer key owner data : List Nat)
    (lamports dup_index : Nat) (sg wr ex : Bool) :
    (serialize_account_solana_format buffer key sg wr lamports data owner ex
        true dup_index).1
      = buffer ++ [0xFF] ++ [0xFF] ++ [boolByte sg] ++ [boolByte wr]
        ++ [boolByte ex] ++ leBytes 4 data.length ++ key ++ owner
        ++ leBytes 8 lamports ++ leBytes 8 data.length ++ data
    ∧ (data.length < 2 ^ 32 →
        leValue (leBytes 4 data.length) = data.length ∧
        leValue (leBytes 8 data.length) = data.length) := by
  constructor
  · simp [serialize_account_solana_format]
  · intro h
    refine ⟨leValue_leBytes_of_lt (by norm_num at h ⊢; exact h), ?_⟩
    exact leValue_leBytes8 (lt_trans h (by norm_num))

/-- Witness for C1 at a concrete three-byte account. -/
theorem C1_original_record_layout_witness :
    (serialize_account_solana_format [] (List.replicate 32 0) true false 7
        [1, 2, 3] (List.replicate 32 5) false true 0).1
      = [] ++ [0xFF] ++ [0xFF] ++ [boolByte true] ++ [boolByte false]
        ++ [boolByte false] ++ leBytes 4 ([1, 2, 3] : List Nat).length
        ++ List.replicate 32 0 ++ List.replicate 32 5 ++ leBytes 8 7
        ++ leBytes 8 ([1, 2, 3] : List Nat).length ++ [1, 2, 3]
    ∧ leValue (leBytes 4 ([1, 2, 3] : List Nat).length) = ([1, 2, 3] : List Nat).length
    ∧ leValue (leBytes 8 ([1, 2, 3] : List Nat).length) = ([1, 2, 3] : List Nat).length := by
  have h := C1_original_record_layout [] (List.replicate 32 0) (List.replicate 32 5)
    [1, 2, 3] 7 0 true false false
  exact ⟨h.1, h.2 (by norm_num)⟩

/-- C2 counterexample: the claim predicts `1 + 1*88 + 0 + 0 = 89` bytes for a
plan with one Original slot of empty data, but the encoder produces 90 bytes
(the fixed per-record header is 89 bytes, not 88). -/
theorem C2_counterexample :
    (encodePlan planEmptyOne).map List.length = .ok 90
    ∧ (90 : Nat) ≠ 1 + 1 * 88 + (0 + 0) := by
  exact ⟨rfl, by decide⟩

/-- C2 (amended): for every accepted plan with k Original slots of data
lengths d_1..d_k and m duplicate slots, the encoded length is
1 + k*89 + (d_1+...+d_k) + m, the fixed non-duplicate header being 89 bytes
(1+1+1+1+1+4+32+32+8+8). -/
theorem C2_size_law (p : List Slot) (b : List Nat) (hwf : p.all keysOk = true)
    (henc : encodePlan p = .ok b) :
    b.length = 1 + 89 * originalsCount p + dataSum p + dupsCount p := by
  obtain ⟨-, -, -, hb⟩ := (encodePlan_ok_iff p b).mp henc
  subst hb
  rw [List.length_cons, flatMap_slotBytes_length p hwf]
  omega

/-- Witness for C2 (amended) at the one-slot empty-data plan. -/
theorem C2_size_law_witness :
    (planEmptyOne.length :: planEmptyOne.flatMap slotBytes).length
      = 1 + 89 * originalsCount planEmptyOne + dataSum planEmptyOne
        + dupsCount planEmptyOne :=
  C2_size_law planEmptyOne _ (by decide) rfl

/-- C4 counterexample: the zero-data example record is 89 bytes long, not 88
as the claim states (the claim's own byte listing has 89 bytes). -/
theorem C4_counterexample :
    ((serialize_account_solana_format [] (List.replicate 32 0) true true 1000
        [] (List.replicate 32 0) false true 0).1).length ≠ 88 := by
  decide

/-- C4 (amended): an Original slot with empty data, all-zero identifier and
owner, lamports 1000 and flags (true, true, false) encodes to exactly the
listed 89-byte record `FF FF 01 01 00 00000000 <32 zeros> <32 zeros>
E803000000000000 0000000000000000`, with no trailing data bytes. -/
theorem C4_empty_data_record :
    (serialize_account_solana_format [] (List.replicate 32 0) true true 1000
        [] (List.replicate 32 0) false true 0).1
      = [0xFF, 0xFF, 0x01, 0x01, 0x00] ++ List.replicate 4 0
        ++ List.replicate 32 0 ++ List.replicate 32 0
        ++ ([0xE8, 0x03] ++ List.replicate 6 0) ++ List.replicate 8 0
    ∧ ((serialize_account_solana_format [] (List.replicate 32 0) true true 1000
        [] (List.replicate 32 0) false true 0).1).length = 89 := by
  decide

/-- C10: the per-account serializer only appends to the buffer — the old
buffer is a prefix of the new one — and returns the lamports value and the
data bytes unchanged, in both the non-duplicate and the duplicate branch. -/
theorem C10_serializer_frame (buffer key data owner : List Nat)
    (lamports dup_index : Nat) (sg wr ex nd : Bool) :
    ∃ t, serialize_account_solana_format buffer key sg wr lamports data owner
        ex nd dup_index
      = (buffer ++ t, lamports, data) := by
  unfold serialize_account_solana_format
  split
  · exact ⟨[0xFF] ++ [0xFF] ++ [boolByte sg] ++ [boolByte wr] ++ [boolByte ex]
      ++ leBytes 4 data.length ++ key ++ owner ++ leBytes 8 lamports
      ++ leBytes 8 data.length ++ data, by simp [List.append_assoc]⟩
  · exact ⟨[dup_index % 256], rfl⟩

/-- C3: decoding the encoder's output (one-byte slot count, then per slot:
0xFF starts a full record with `data_len` trailing data bytes, any other byte
is a one-byte duplicate index) reproduces the original sequence of slots with
all fields and duplicate indices equal. -/
theorem C3_roundtrip (p : List Slot) (b : List Nat) (hwf : p.all keysOk = true)
    (henc : encodePlan p = .ok b) : decodeBuffer b = some p := by
  obtain ⟨-, -, -, hb⟩ := (encodePlan_ok_iff p b).mp henc
  subst hb
  show decodeSlots p.length (p.flatMap slotBytes) = some p
  rw [← List.append_nil (p.flatMap slotBytes)]
  exact decodeSlots_flatMap p (slotOK_of_ok henc hwf) []

/-- Witness for C3 at a two-slot plan with one duplicate back-reference. -/
theorem C3_roundtrip_witness :
    decodeBuffer (planRT.length :: planRT.flatMap slotBytes) = some planRT :=
  C3_roundtrip planRT _ (by decide) rfl

/-- A plan whose only slot is a duplicate referencing itself — an invalid
back-reference. -/
def planBadDup : List Slot := [Slot.DuplicateOf 0]

/-- C5: a plan containing a `DuplicateOf` slot whose index does not point at
a strictly earlier `Original` slot is rejected (with
`InvalidDuplicateReference` once the earlier validation checks pass), and in
every accepted plan each duplicate index is below 0xFF, so the encoder never
emits 0xFF as a literal duplicate-index byte. -/
theorem C5_invalid_duplicate_reference (p : List Slot) (i j : Nat)
    (hget : p.get? i = some (.DuplicateOf j))
    (hbad : ¬(j < i ∧ isOriginalAt p j = true))
    (q : List Slot) (bq : List Nat) (hq : encodePlan q = .ok bq) :
    (∃ e, encodePlan p = .error e)
    ∧ (p.length ≤ 255 → dataLenOk p = true →
        encodePlan p = .error .InvalidDuplicateReference)
    ∧ ∀ i2 j2, q.get? i2 = some (.DuplicateOf j2) →
        j2 < 0xFF ∧ slotBytes (.DuplicateOf j2) = [j2] := by
  have hdrf : dupRefOk p = false := by
    by_contra hc
    exact hbad (dupRefOk_get (by simpa using hc) hget)
  refine ⟨?_, ?_, ?_⟩
  · by_cases h1 : 255 < p.length
    · exact ⟨_, by unfold encodePlan; rw [if_pos h1]⟩
    · by_cases h2 : dataLenOk p = false
      · exact ⟨_, by unfold encodePlan; rw [if_neg h1, if_pos h2]⟩
      · exact ⟨_, by unfold encodePlan; rw [if_neg h1, if_neg h2, if_pos hdrf]⟩
  · intro hle hdl
    unfold encodePlan
    rw [if_neg (Nat.not_lt.mpr hle), if_neg (by simp [hdl]), if_pos hdrf]
  · intro i2 j2 hg2
    obtain ⟨hlenq, -, hdrq, -⟩ := (encodePlan_ok_iff q bq).mp hq
    have hji := (dupRefOk_get hdrq hg2).1
    have hi := get?_some_lt hg2
    have hj255 : j2 < 255 := by omega
    exact ⟨hj255, by rw [slotBytes_dup, Nat.mod_eq_of_lt (by omega)]⟩

/-- Witness for C5: `planBadDup` is rejected with
`InvalidDuplicateReference`; `planRT` is accepted and its duplicate indices
stay below 0xFF. -/
theorem C5_invalid_duplicate_reference_witness :
    (∃ e, encodePlan planBadDup = .error e)
    ∧ (planBadDup.length ≤ 255 → dataLenOk planBadDup = true →
        encodePlan planBadDup = .error .InvalidDuplicateReference)
    ∧ ∀ i2 j2, planRT.get? i2 = some (.DuplicateOf j2) →
        j2 < 0xFF ∧ slotBytes (.DuplicateOf j2) = [j2] :=
  C5_invalid_duplicate_reference planBadDup 0 0 rfl (by decide) planRT _ rfl

/-- The boundary plan of 255 Original slots with empty data. -/
def plan255 : List Slot :=
  List.replicate 255
    (Slot.Original
      { key := List.replicate 32 0, owner := List.replicate 32 0, lamports := 0,
        data := [], is_signer := false, is_writable := false, executable := false })

/-- A 256-slot plan, one past the one-byte count limit. -/
def plan256 : List Slot := List.replicate 256 (Slot.DuplicateOf 0)

/-- C6: a plan of exactly 255 Original slots (whose data lengths fit the
32-bit field) encodes successfully and the buffer's first byte — the slot
count — is 0xFF, while every plan of 256 or more slots is rejected with
`PlanTooLarge`. -/
theorem C6_boundary_255 (p q : List Slot) (h255 : p.length = 255)
    (horig : ∀ s ∈ p, ∃ a, s = Slot.Original a) (hdl : dataLenOk p = true)
    (hq : 256 ≤ q.length) :
    (∃ b, encodePlan p = .ok b ∧ b.head? = some 0xFF)
    ∧ encodePlan q = .error .PlanTooLarge := by
  constructor
  · have hdr : dupRefOk p = true := by
      unfold dupRefOk
      rw [List.all_eq_true]
      intro i hi
      cases hgi : p.get? i with
      | none => simp [hgi]
      | some s =>
        obtain ⟨a, rfl⟩ := horig s (List.get?_mem hgi)
        simp [hgi]
    refine ⟨p.length :: p.flatMap slotBytes, ?_, ?_⟩
    · exact (encodePlan_ok_iff p _).mpr ⟨by omega, hdl, hdr, rfl⟩
    · rw [h255]; rfl
  · unfold encodePlan
    rw [if_pos (by omega)]

/-- Witness for C6 at the 255- and 256-slot boundary plans. -/
theorem C6_boundary_255_witness :
    (∃ b, encodePlan plan255 = .ok b ∧ b.head? = some 0xFF)
    ∧ encodePlan plan256 = .error .PlanTooLarge :=
  C6_boundary_255 plan255 plan256 (List.length_replicate 255 _)
    (fun s hs => ⟨_, List.eq_of_mem_replicate hs⟩)
    (List.all_eq_true.mpr fun s hs => by rw [List.eq_of_mem_replicate hs]; rfl)
    (le_of_eq (List.length_replicate 256 _).symm)

/-- A snapshot whose data is 2^32 bytes long, overflowing the u32 field. -/
def bigSnap : AccountSnapshot :=
  { key := List.replicate 32 0, owner := List.replicate 32 0, lamports := 0,
    data := List.replicate (2 ^ 32) 0, is_signer := false, is_writable := false,
    executable := false }

/-- The one-slot plan holding `bigSnap`. -/
def planBig : List Slot := [Slot.Original bigSnap]

/-- C7: a plan (within the slot-count limit) containing an Original snapshot
whose data length exceeds 2^32 - 1 is rejected with `DataLengthOverflow` by
the validation pass, before any bytes are produced. -/
theorem C7_data_length_overflow (p : List Slot) (hle : p.length ≤ 255)
    (s : AccountSnapshot) (hmem : Slot.Original s ∈ p)
    (hof : 2 ^ 32 ≤ s.data.length) :
    encodePlan p = .error .DataLengthOverflow := by
  have hdl : dataLenOk p = false := by
    by_contra hc
    have := dataLenOk_mem (by simpa using hc) hmem
    omega
  unfold encodePlan
  rw [if_neg (Nat.not_lt.mpr hle), if_pos hdl]

/-- Witness for C7 at the 2^32-byte account. -/
theorem C7_data_length_overflow_witness :
    encodePlan planBig = .error .DataLengthOverflow :=
  C7_data_length_overflow planBig (by norm_num [planBig]) bigSnap
    (List.mem_singleton.mpr rfl)
    (le_of_eq (List.length_replicate (2 ^ 32) 0).symm)

/-- Field-by-field sameness of two slots: same snapshots (all seven fields)
for originals, same index for duplicates. -/
def slotFieldsEq : Slot → Slot → Prop
  | .Original a, .Original b =>
      a.key = b.key ∧ a.owner = b.owner ∧ a.lamports = b.lamports ∧
        a.data = b.data ∧ a.is_signer = b.is_signer ∧
        a.is_writable = b.is_writable ∧ a.executable = b.executable
  | .DuplicateOf i, .DuplicateOf j => i = j
  | _, _ => False

theorem slotFieldsEq_eq {a b : Slot} (h : slotFieldsEq a b) : a = b := by
  cases a with
  | Original x =>
    cases b with
    | Original y =>
      obtain ⟨h1, h2, h3, h4, h5, h6, h7⟩ := h
      cases x
      cases y
      simp only at h1 h2 h3 h4 h5 h6 h7
      subst h1; subst h2; subst h3; subst h4; subst h5; subst h6; subst h7
      rfl
    | DuplicateOf j => exact h.elim
  | DuplicateOf i =>
    cases b with
    | Original y => exact h.elim
    | DuplicateOf j => rw [show i = j from h]

/-- C8: encoding is deterministic — two plans holding the same snapshots, in
the same order, with the same duplicate map, encode to the same result
byte for byte. -/
theorem C8_determinism (p q : List Slot) (hlen : p.length = q.length)
    (h : ∀ i a b, p.get? i = some a → q.get? i = some b → slotFieldsEq a b) :
    encodePlan p = encodePlan q := by
  have hpq : p = q := by
    apply List.ext_get?
    intro n
    cases hp : p.get? n with
    | none =>
      rw [List.get?_eq_none] at hp
      rw [List.get?_eq_none.mpr (by omega)]
    | some a =>
      cases hq : q.get? n with
      | none =>
        have := get?_some_lt hp
        rw [List.get?_eq_none] at hq
        omega
      | some b => rw [slotFieldsEq_eq (h n a b hp hq)]
  rw [hpq]

/-- Witness for C8 at a concrete one-slot plan compared with itself. -/
theorem C8_determinism_witness : encodePlan planRT = encodePlan planRT :=
  C8_determinism planRT planRT rfl (by
    intro i a b ha hb
    match i with
    | 0 =>
      simp only [planRT, List.get?] at ha hb
      injection ha with ha
      injection hb with hb
      subst ha; subst hb
      exact ⟨rfl, rfl, rfl, rfl, rfl, rfl, rfl⟩
    | 1 =>
      simp only [planRT, List.get?] at ha hb
      injection ha with ha
      injection hb with hb
      subst ha; subst hb
      rfl
    | n + 2 => simp [planRT, List.get?] at ha)

/-- The account key of the ten-slot fixture: `key_bytes[0] = i`, rest zero. -/
def complexKey (i : Nat) : List Nat := i :: List.replicate 31 0

/-- Embedding of `generate_complex_iteration_solana_format` (source lines
278–315), buffer contents only: the count byte 10, then for each `i < 10` a
single duplicate byte at slots 4 (0x01) and 7 (0x02) and otherwise a full
record serialized by `serialize_account_solana_format` with
`key_bytes[0] = i`, lamports `(i+1)*500`, data `((i % 4) + 1) * 3` copies of
`0xA0 + i`, default owner, and flags `i % 2 == 0`, `i % 3 != 0`,
`i % 5 == 0`. -/
def complexIterationBuffer : List Nat :=
  (List.range 10).foldl
    (fun buffer i =>
      if i = 4 then buffer ++ [0x01]
      else if i = 7 then buffer ++ [0x02]
      else
        (serialize_account_solana_format buffer (complexKey i) (i % 2 == 0)
          (i % 3 != 0) ((i + 1) * 500)
          (List.replicate ((i % 4 + 1) * 3) (0xA0 + i)) (List.replicate 32 0)
          (i % 5 == 0) true 0).1)
    [10]

/-- Follows the claim's words: the ten-slot plan with duplicate
back-references at slot 4 (to 1) and slot 7 (to 2), and at every other slot
`i` an Original record with `is_signer = (i even)`,
`is_writable = (i mod 3 ≠ 0)`, `executable = (i mod 5 = 0)` and data of
length `((i mod 4) + 1) * 3` filled with the index-derived byte `0xA0 + i`. -/
def complexPlanSpec : List Slot :=
  (List.range 10).map fun i =>
    if i = 4 then .DuplicateOf 1
    else if i = 7 then .DuplicateOf 2
    else .Original
      { key := complexKey i, owner := List.replicate 32 0,
        lamports := (i + 1) * 500,
        data := List.replicate ((i % 4 + 1) * 3) (0xA0 + i),
        is_signer := decide (i % 2 = 0), is_writable := decide (i % 3 ≠ 0),
        executable := decide (i % 5 = 0) }

set_option maxRecDepth 100000 in
/-- C9: the ten-slot fixture buffer is exactly the encoding of the plan the
claim describes — duplicates at slots 4 (→1) and 7 (→2), and Original
records with the stated flag pattern and data lengths everywhere else. -/
theorem C9_complex_fixture :
    encodePlan complexPlanSpec = .ok complexIterationBuffer := by
  rfl

end SolFmt
